import Mathlib

/-!
Verification development for the Ai-Vision object-detection repository.

The Python modules `app/objvision.py` and `app/constants.py` are shallowly
embedded below: pure fragments become Lean functions over `ℚ`, `ℤ`, `ℕ` and
`List`; code that can raise an exception is modelled with `Option` / `Except`
(a `none` / `.error` result stands for the raised exception); the stateful
frame-processing loop `process_video` becomes an explicit recursive function
over the finite schedule of source frames and keyboard events.

Float values from the Python/numpy code are modelled as exact rationals; all
concrete inputs used in the theorems below are exactly representable, so the
rational model agrees with the float computation on them.
-/

namespace AiVision

/-! ## Numeric helpers modelling Python / numpy primitives

`ratTrunc q` models Python's `int(q)` on a float value `q`: truncation toward
zero.  `ratFloor q` is the mathematical floor, and `pyFloorDiv a b` models the
numpy floor-division `a // b` (whose result is still a float, with an integral
value). -/

/-- Truncation toward zero of a rational, as Python's `int()` does on floats.
Since `q.den > 0`, `Int.tdiv` (T-division) truncates toward zero. -/
def ratTrunc (q : ℚ) : ℤ := q.num.tdiv q.den

/-- Mathematical floor of a rational (`Int.ediv` floors for positive
denominators). -/
def ratFloor (q : ℚ) : ℤ := q.num.ediv q.den

/-- Numpy floor division `a // b` restricted to `b = 2`, as used in
`get_coordinates` (`w//2`, `h//2`); the result stays a rational with an
integral value, exactly like numpy keeps it a float. -/
def pyFloorDiv2 (a : ℚ) : ℚ := (ratFloor (a / 2) : ℚ)

/-! ## Constants from `app/constants.py` -/

/-- Models `NMS_THRESHOLD_OFFSET: float = 0.1` from `app/constants.py`. -/
def NMS_THRESHOLD_OFFSET : ℚ := 1 / 10

/-- Models `PREDEFINED_COLORS` from `app/constants.py` (BGR triples). -/
def PREDEFINED_COLORS : List (ℕ × ℕ × ℕ) :=
  [(0, 0, 255), (0, 255, 0), (255, 0, 0), (255, 255, 0), (255, 0, 255), (0, 255, 255)]

/-! ## Detection records

`Cand` models the transient `(boxes[i], confidences[i], classIDs[i])` triple
built inside `ImageProcessor.get_coordinates`; `Det` models one entry of the
coordinate dictionary list that the function returns. -/

/-- A pre-NMS candidate: pixel box, class index, confidence. -/
structure Cand where
  x : ℤ
  y : ℤ
  w : ℤ
  h : ℤ
  classID : ℕ
  confidence : ℚ
deriving DecidableEq

/-- One returned detection dictionary of `get_coordinates`
(`x`, `y`, `w`, `h`, `class`, `class_name`, `confidence`). -/
structure Det where
  x : ℤ
  y : ℤ
  w : ℤ
  h : ℤ
  classID : ℕ
  className : String
  confidence : ℚ
deriving DecidableEq

/-! ## Decoding one output row (`get_coordinates`, lines 343-354) -/

/-- Helper for `npArgmax`: running first-index-of-maximum scan.  Numpy's
`argmax` keeps the first occurrence of the maximum, hence the strict `<`. -/
def argmaxAux : ℕ → ℚ → ℕ → List ℚ → ℕ
  | best, _, _, [] => best
  | best, bestV, i, v :: vs =>
    if bestV < v then argmaxAux i v (i + 1) vs else argmaxAux best bestV (i + 1) vs

/-- Models `np.argmax` on a score vector: index of the first maximal entry.
Numpy raises on an empty vector; `get_coordinates` only reaches the call with
a nonempty vector when every row has length at least 6 (see
`get_coordinates` below), so the `[]` case is unreachable there. -/
def npArgmax : List ℚ → ℕ
  | [] => 0
  | v :: vs => argmaxAux 0 v 1 vs

/-- Models the per-row body of the loop in `get_coordinates`:
`scores = output[5:]`, `classID = np.argmax(scores)`,
`confidence = scores[classID]`,
`x, y, w, h = output[:4] * np.array([self.W, self.H, self.W, self.H])`,
`p0 = int(x - w//2), int(y - h//2)`, `boxes.append([*p0, int(w), int(h)])`.
`W` and `H` are `self.W`, `self.H`: the size `process_video` obtained from
the video source (the original frame size, not the model input size). -/
def decodeCand (W H : ℚ) (row : List ℚ) : Cand :=
  let scores := row.drop 5
  let classID := npArgmax scores
  let confidence := scores.getD classID 0
  let x := row.getD 0 0 * W
  let y := row.getD 1 0 * H
  let w := row.getD 2 0 * W
  let h := row.getD 3 0 * H
  { x := ratTrunc (x - pyFloorDiv2 w)
    y := ratTrunc (y - pyFloorDiv2 h)
    w := ratTrunc w
    h := ratTrunc h
    classID := classID
    confidence := confidence }

/-- The candidate lists built by the row loop of `get_coordinates`: a row
contributes exactly when `confidence > conf`. -/
def candidatesOf (W H conf : ℚ) (outputs : List (List ℚ)) : List Cand :=
  (outputs.map (decodeCand W H)).filter (fun c => decide (conf < c.confidence))

/-! ## IoU and greedy NMS (`cv.dnn.NMSBoxes`)

OpenCV's `NMSBoxes`: keep the candidates whose score is strictly above the
score threshold, stable-sort them by descending score, then scan in order
keeping a box exactly when its overlap with every previously kept box is at
most the NMS threshold. -/

/-- Length of the overlap of two integer segments `[a1, a1+l1)`, `[a2, a2+l2)`,
clamped at 0 (models the `cv::Rect` intersection). -/
def interLen (a1 l1 a2 l2 : ℤ) : ℤ := max 0 (min (a1 + l1) (a2 + l2) - max a1 a2)

/-- Intersection area of two candidate boxes. -/
def interArea (c d : Cand) : ℤ := interLen c.x c.w d.x d.w * interLen c.y c.h d.y d.h

/-- Box area. -/
def rectArea (c : Cand) : ℤ := c.w * c.h

/-- Intersection over union of two boxes, the overlap measure used by
`cv.dnn.NMSBoxes` (degenerate unions count as overlap 0). -/
def iou (c d : Cand) : ℚ :=
  let i : ℤ := interArea c d
  let u : ℤ := rectArea c + rectArea d - i
  if u ≤ 0 then 0 else (i : ℚ) / (u : ℚ)

/-- Descending-confidence preorder used for the NMS sort. -/
def confGE (c d : Cand) : Prop := d.confidence ≤ c.confidence

instance : DecidableRel confGE :=
  fun c d => inferInstanceAs (Decidable (d.confidence ≤ c.confidence))

instance : IsTotal Cand confGE := ⟨fun c d => le_total d.confidence c.confidence⟩

instance : IsTrans Cand confGE := ⟨fun _ _ _ hab hbc => le_trans hbc hab⟩

/-- The selection scan of OpenCV's `NMSFast_`: `kept` holds the already
selected boxes (most recent first); a box is selected exactly when its IoU
with every selected box is at most `t`. -/
def nmsSelect (t : ℚ) : List Cand → List Cand → List Cand
  | kept, [] => kept.reverse
  | kept, c :: rest =>
    if kept.all (fun k => decide (iou k c ≤ t)) then nmsSelect t (c :: kept) rest
    else nmsSelect t kept rest

/-- Models `cv.dnn.NMSBoxes(boxes, confidences, conf, nms_threshold)`:
filter by score strictly above `scoreThreshold`, stable sort by descending
score, then greedily select. -/
def nmsBoxes (scoreThreshold nmsThreshold : ℚ) (cands : List Cand) : List Cand :=
  nmsSelect nmsThreshold []
    (List.insertionSort confGE (cands.filter (fun c => decide (scoreThreshold < c.confidence))))

/-- The NMS stage of `get_coordinates`:
`nms_threshold = conf - NMS_THRESHOLD_OFFSET` followed by `cv.dnn.NMSBoxes`. -/
def nmsStage (conf : ℚ) (cands : List Cand) : List Cand :=
  nmsBoxes conf (conf - NMS_THRESHOLD_OFFSET) cands

/-! ## Result formatting and the full decoder -/

/-- The final formatting loop of `get_coordinates`: each surviving candidate
is turned into a coordinate dictionary; the `class_name` field comes from the
lookup `self.classes[classIDs[i]]`, which raises `KeyError` (modelled by
`none`) when the class index is not in the catalog. -/
def formatDets (classes : List String) : List Cand → Option (List Det)
  | [] => some []
  | c :: cs =>
    match classes.get? c.classID, formatDets classes cs with
    | some nm, some ds =>
      some ({ x := c.x, y := c.y, w := c.w, h := c.h, classID := c.classID,
              className := nm, confidence := c.confidence } :: ds)
    | _, _ => none

/-- Models `ImageProcessor.get_coordinates(outputs, conf)`.  A row with fewer
than 6 entries makes `np.argmax(output[5:])` raise `ValueError` on the empty
slice (modelled by `none`); otherwise the row loop, the NMS stage and the
formatting loop run.  `classes` models the `self.classes` catalog
(index `i` maps to `classes.get? i`); there is no row-width validation of any
kind in the source. -/
def get_coordinates (classes : List String) (W H : ℚ) (outputs : List (List ℚ))
    (conf : ℚ) : Option (List Det) :=
  if outputs.all (fun row => decide (6 ≤ row.length)) then
    formatDets classes (nmsStage conf (candidatesOf W H conf outputs))
  else
    none

example :
    get_coordinates ["a", "b", "c"] 20 20 [[1/2, 1/2, 1/4, 1/4, 0, 9/10, 1/10]] (1/2)
      = some [⟨8, 8, 5, 5, 0, "a", 9/10⟩] := by with_unfolding_all decide

example : get_coordinates ["a"] 20 20 [[1/2, 1/2, 1/4, 1/4, 0, 1/4]] (1/2) = some [] := by
  with_unfolding_all decide

/-! ## Renderer (`ImageProcessor.draw_identified_objects`) -/

/-- The drawing effect of one loop iteration of `draw_identified_objects`:
the rectangle and the text label put on the frame for one detection. -/
structure DrawOp where
  x : ℤ
  y : ℤ
  w : ℤ
  h : ℤ
  color : ℕ × ℕ × ℕ
  label : String
  labelConfidence : ℚ
deriving DecidableEq

/-- One iteration of the loop in `draw_identified_objects`:
`color = self.colors[classID % len(self.colors)]` (defensive wraparound),
`cv.rectangle(...)`, then `label = f"{self.classes[classID]} ..."` — the
catalog lookup `self.classes[classID]` raises `KeyError` (modelled by `none`)
when `classID` is not a key of the catalog.  An empty color list would make
`classID % len(self.colors)` raise `ZeroDivisionError`, also `none`. -/
def drawOne (classes : List String) (colors : List (ℕ × ℕ × ℕ)) (d : Det) : Option DrawOp :=
  if colors.length = 0 then none
  else
    let color := colors.getD (d.classID % colors.length) (0, 0, 0)
    (classes.get? d.classID).map (fun nm =>
      { x := d.x, y := d.y, w := d.w, h := d.h, color := color, label := nm,
        labelConfidence := d.confidence })

/-- Models `draw_identified_objects(img, coordinates)`: the sequence of draw
operations performed on the frame, or `none` when some iteration raises. -/
def draw_identified_objects (classes : List String) (colors : List (ℕ × ℕ × ℕ)) :
    List Det → Option (List DrawOp)
  | [] => some []
  | d :: ds =>
    match drawOne classes colors d, draw_identified_objects classes colors ds with
    | some op, some ops => some (op :: ops)
    | _, _ => none

/-! ## Source classification and opening (`VideoCapture.__init__`) -/

/-- Python `str.strip()` whitespace set (space, tab, LF, CR, VT, FF). -/
def pyIsSpace (c : Char) : Bool :=
  c = ' ' || c = '\t' || c = '\n' || c = '\r' || c = '\x0b' || c = '\x0c'

/-- Python `str.strip()`: drop whitespace from both ends. -/
def pyStrip (s : List Char) : List Char :=
  ((s.dropWhile pyIsSpace).reverse.dropWhile pyIsSpace).reverse

/-- Python `str.lower()` (ASCII fragment). -/
def pyLower (s : List Char) : List Char := s.map Char.toLower

/-- Python `str.isdigit()` (ASCII fragment): nonempty and all digits. -/
def pyIsDigit (s : List Char) : Bool := !s.isEmpty && s.all Char.isDigit

/-- Numeric value of an all-digit string, as Python's `int(...)`. -/
def digitsToNat (s : List Char) : ℕ :=
  s.foldl (fun acc c => acc * 10 + (c.toNat - '0'.toNat)) 0

/-- Models `STREAM_URL_PREFIXES` from `app/constants.py`. -/
def streamUrlSchemes : List (List Char) :=
  ["http://".data, "https://".data, "rtsp://".data, "rtmp://".data, "udp://".data]

/-- Does the character list start with the given scheme string? -/
def startsWithScheme (l p : List Char) : Bool := l.take p.length == p

/-- The three syntactic classes a string input can fall into. -/
inductive SourceKind
  | camera (idx : ℕ)
  | stream (url : String)
  | file (resolved : String)
deriving DecidableEq

/-- Models `Path(video_path).is_absolute()` on POSIX. -/
def isAbsolutePath (s : String) : Bool := s.startsWith "/"

/-- Models `project_root / video_path` resolution for non-absolute paths. -/
def resolvePath (root s : String) : String := if isAbsolutePath s then s else root ++ "/" ++ s

/-- The classification performed by `VideoCapture.__init__` on a string input
(lines 63-82 of `app/objvision.py`): all-digit strings are camera indices;
otherwise, if `video_path.lower().strip()` starts with one of the
`STREAM_URL_PREFIXES` the input is a stream URL; otherwise it is a file path,
resolved against the project root when not absolute. -/
def classify (root : String) (s : String) : SourceKind :=
  if pyIsDigit s.data then .camera (digitsToNat s.data)
  else if streamUrlSchemes.any (fun p => startsWithScheme (pyStrip (pyLower s.data)) p) then
    .stream s
  else .file (resolvePath root s)

/-- The failure outcomes of `VideoCapture.__init__`, distinguished exactly as
the source distinguishes them:
`sourceNotFound` is `VideoProcessingError('Video file not found: ...')`
raised before any open attempt, `streamConnectFailed` is
`StreamConnectionError(...)` (a distinct exception class), and
`sourceOpenFailed` is `VideoProcessingError('Could not open video source: ...')`. -/
inductive OpenErr
  | sourceNotFound (resolved : String)
  | streamConnectFailed (orig : String)
  | sourceOpenFailed (orig : String)
deriving DecidableEq

/-- Models `VideoCapture.__init__` on a string input.  `fsExists` abstracts
`Path.exists()`; `opens` abstracts whether `cv.VideoCapture(...).isOpened()`
holds for the given source.  The file branch checks existence before any open
attempt; the stream branch raises the dedicated `StreamConnectionError`; the
camera branch and the existing-file branch raise the generic open failure. -/
def videoCaptureInit (root : String) (fsExists : String → Bool)
    (opens : SourceKind → Bool) (s : String) : Except OpenErr SourceKind :=
  match classify root s with
  | .camera i => if opens (.camera i) then .ok (.camera i) else .error (.sourceOpenFailed s)
  | .stream u => if opens (.stream u) then .ok (.stream u) else .error (.streamConnectFailed s)
  | .file p =>
    if fsExists p then
      if opens (.file p) then .ok (.file p) else .error (.sourceOpenFailed s)
    else .error (.sourceNotFound p)

/-! ## The streaming loop (`process_video`, lines 497-577)

The loop is driven by two finite schedules: the source frames (a frame is a
`ℕ` identifier; `get_frame` returns `None` when they are exhausted) and the
keyboard events returned by `cv.waitKey` (one per loop iteration; `other`
covers "no key").  `detect` abstracts `processor.process_image`: the
detections computed for a frame.  Running out of keyboard events models the
run being cut off there (`KeyboardInterrupt`), which the source catches and
which still returns the accumulated list.  The result is the accumulated
`all_detections` list (in append order) together with the final value of
`frame_number`. -/

/-- A keyboard event for one `cv.waitKey` poll. -/
inductive Key
  | quit
  | pause
  | other
deriving DecidableEq

/-- One entry of `all_detections`: `{'frame': frame_number, 'detections': ...}`. -/
structure FrameEntry where
  frame : ℕ
  dets : List ℕ
deriving DecidableEq

/-- Models the `while True` loop of `process_video`.  Arguments mirror the
Python state: remaining keyboard events, remaining source frames, the
`frame_number` counter, the `paused` flag, the current value of the `frame`
variable (which persists across iterations — while paused it still holds the
last pulled frame), and the accumulator `all_detections` (most recent first;
the returned list is reversed into append order).

Each iteration: unless paused, pull the next frame and break on `None`;
then, whenever the `frame` variable holds a frame — also while paused — run
detection on it and append `{'frame': frame_number, 'detections': ...}`;
then poll one keyboard event (`quit` breaks, `pause` toggles), and finally
increment `frame_number` unless (now) paused. -/
def runLoop (detect : ℕ → List ℕ) :
    List Key → List ℕ → ℕ → Bool → Option ℕ → List FrameEntry → List FrameEntry × ℕ
  | keys, rest, n, paused, lastF, acc =>
    let pull : Option ℕ × List ℕ × Bool :=
      if paused then (lastF, rest, false)
      else
        match rest with
        | [] => (none, [], true)
        | f :: fs => (some f, fs, false)
    match pull with
    | (lastF', rest', ended) =>
      if ended then (acc.reverse, n)
      else
        let acc' := match lastF' with
          | some f => ⟨n, detect f⟩ :: acc
          | none => acc
        match keys with
        | [] => (acc'.reverse, n)
        | k :: ks =>
          match k with
          | Key.quit => (acc'.reverse, n)
          | Key.pause =>
            runLoop detect ks rest' (if !paused then n else n + 1) (!paused) lastF' acc'
          | Key.other =>
            runLoop detect ks rest' (if paused then n else n + 1) paused lastF' acc'

example :
    runLoop (fun f => [f]) [Key.pause, Key.other, Key.quit] [10, 20] 0 false none []
      = ([⟨0, [10]⟩, ⟨0, [10]⟩, ⟨0, [10]⟩], 0) := by with_unfolding_all decide

example :
    runLoop (fun f => [f]) [Key.other, Key.other, Key.other] [10, 20] 0 false none []
      = ([⟨0, [10]⟩, ⟨1, [20]⟩], 2) := by with_unfolding_all decide

/-! ## Lemmas about the NMS selection scan -/

/-- The output of `nmsSelect` is the already-kept boxes (in selection order)
followed by a sublist of the remaining candidates. -/
theorem nmsSelect_shape (t : ℚ) :
    ∀ (l kept : List Cand), ∃ s, nmsSelect t kept l = kept.reverse ++ s ∧ s.Sublist l := by
  intro l
  induction l with
  | nil =>
    intro kept
    exact ⟨[], by simp [nmsSelect], List.Sublist.refl _⟩
  | cons c rest ih =>
    intro kept
    by_cases h : kept.all (fun k => decide (iou k c ≤ t)) = true
    · obtain ⟨s, hs, hsub⟩ := ih (c :: kept)
      refine ⟨c :: s, ?_, hsub.cons₂ c⟩
      rw [nmsSelect, if_pos h, hs, List.reverse_cons, List.append_assoc,
        List.singleton_append]
    · obtain ⟨s, hs, hsub⟩ := ih kept
      exact ⟨s, by rw [nmsSelect, if_neg h]; exact hs, hsub.cons c⟩

/-- Every box in the output of `nmsSelect` was kept before or is a remaining
candidate. -/
theorem mem_nmsSelect {t : ℚ} {l kept : List Cand} {x : Cand}
    (hx : x ∈ nmsSelect t kept l) : x ∈ kept ∨ x ∈ l := by
  obtain ⟨s, hs, hsub⟩ := nmsSelect_shape t l kept
  rw [hs, List.mem_append, List.mem_reverse] at hx
  exact hx.imp id (fun h => hsub.subset h)

/-- The output of the selection scan is pairwise compatible: in selection
order, every later box has IoU at most `t` with every earlier one. -/
theorem nmsSelect_pairwise (t : ℚ) :
    ∀ (l kept : List Cand),
      List.Pairwise (fun a b => iou a b ≤ t) kept.reverse →
      List.Pairwise (fun a b => iou a b ≤ t) (nmsSelect t kept l) := by
  intro l
  induction l with
  | nil => intro kept h; simpa [nmsSelect] using h
  | cons c rest ih =>
    intro kept h
    by_cases hc : kept.all (fun k => decide (iou k c ≤ t)) = true
    · rw [nmsSelect, if_pos hc]
      refine ih (c :: kept) ?_
      rw [List.reverse_cons, List.pairwise_append]
      refine ⟨h, List.pairwise_singleton _ _, ?_⟩
      intro a ha b hb
      rw [List.mem_singleton] at hb
      subst hb
      exact of_decide_eq_true (List.all_eq_true.mp hc a (List.mem_reverse.mp ha))
    · rw [nmsSelect, if_neg hc]
      exact ih kept h

/-- On a pairwise-compatible candidate list whose members are all compatible
with the already-kept boxes, the selection scan keeps everything. -/
theorem nmsSelect_of_pairwise (t : ℚ) :
    ∀ (l kept : List Cand),
      List.Pairwise (fun a b => iou a b ≤ t) l →
      (∀ c ∈ l, ∀ k ∈ kept, iou k c ≤ t) →
      nmsSelect t kept l = kept.reverse ++ l := by
  intro l
  induction l with
  | nil => intro kept _ _; simp [nmsSelect]
  | cons c rest ih =>
    intro kept hp hk
    have hc : kept.all (fun k => decide (iou k c ≤ t)) = true := by
      rw [List.all_eq_true]
      intro k hkm
      exact decide_eq_true (hk c (List.mem_cons_self c rest) k hkm)
    rw [nmsSelect, if_pos hc, ih (c :: kept) hp.of_cons ?_,
      List.reverse_cons, List.append_assoc, List.singleton_append]
    intro d hd k hkm
    rcases List.mem_cons.mp hkm with rfl | hkk
    · exact (List.pairwise_cons.mp hp).1 d hd
    · exact hk d (List.mem_cons_of_mem _ hd) k hkk

/-- Every box surviving the NMS stage is one of the candidates and has
confidence strictly above the score threshold. -/
theorem mem_nmsStage {conf : ℚ} {cands : List Cand} {x : Cand}
    (hx : x ∈ nmsStage conf cands) : x ∈ cands ∧ conf < x.confidence := by
  rw [nmsStage, nmsBoxes] at hx
  rcases mem_nmsSelect hx with h | h
  · simp at h
  · rw [List.mem_insertionSort] at h
    have h' := List.mem_filter.mp h
    exact ⟨h'.1, of_decide_eq_true h'.2⟩

/-- C8: the NMS stage of the decoder is idempotent — feeding the surviving
boxes back in as raw candidates with their kept confidences, with the same
confidence threshold and `nms_threshold = confidence_threshold - 0.1`,
returns them unchanged. -/
theorem C8_nms_idempotent (conf : ℚ) (cands : List Cand) :
    nmsStage conf (nmsStage conf cands) = nmsStage conf cands := by
  obtain ⟨s, hs, hsub⟩ :=
    nmsSelect_shape (conf - NMS_THRESHOLD_OFFSET)
      (List.insertionSort confGE (cands.filter (fun c => decide (conf < c.confidence)))) []
  have hout : nmsStage conf cands = s := by
    rw [nmsStage, nmsBoxes, hs, List.reverse_nil, List.nil_append]
  have hsorted : List.Sorted confGE (nmsStage conf cands) := by
    rw [hout]
    exact List.Pairwise.sublist hsub (List.sorted_insertionSort confGE _)
  have hconf : ∀ x ∈ nmsStage conf cands, conf < x.confidence :=
    fun x hx => (mem_nmsStage hx).2
  have hpw : List.Pairwise (fun a b => iou a b ≤ conf - NMS_THRESHOLD_OFFSET)
      (nmsStage conf cands) := by
    rw [nmsStage, nmsBoxes]
    exact nmsSelect_pairwise _ _ [] (by simp)
  conv_lhs => rw [nmsStage, nmsBoxes]
  rw [List.filter_eq_self.mpr (fun a ha => decide_eq_true (hconf a ha)),
    List.Sorted.insertionSort_eq hsorted,
    nmsSelect_of_pairwise _ _ [] hpw (by intro c _ k hk; simp at hk),
    List.reverse_nil, List.nil_append]

/-! ## Lemmas about the formatting loop -/

/-- Every detection returned by the formatting loop comes from a surviving
candidate, with all the shared fields copied verbatim. -/
theorem formatDets_mem {classes : List String} :
    ∀ {cs : List Cand} {l : List Det}, formatDets classes cs = some l →
      ∀ d ∈ l, ∃ c ∈ cs, d.x = c.x ∧ d.y = c.y ∧ d.w = c.w ∧ d.h = c.h ∧
        d.classID = c.classID ∧ d.confidence = c.confidence := by
  intro cs
  induction cs with
  | nil =>
    intro l h d hd
    rw [formatDets] at h
    cases h
    simp at hd
  | cons c cs ih =>
    intro l h d hd
    rw [formatDets] at h
    cases hg : classes.get? c.classID with
    | none => rw [hg] at h; cases h
    | some nm =>
      rw [hg] at h
      cases hr : formatDets classes cs with
      | none => rw [hr] at h; cases h
      | some ds =>
        rw [hr] at h
        cases h
        rcases List.mem_cons.mp hd with rfl | hds
        · exact ⟨c, List.mem_cons_self c cs, rfl, rfl, rfl, rfl, rfl, rfl⟩
        · obtain ⟨c', hc', hfields⟩ := ih hr d hds
          exact ⟨c', List.mem_cons_of_mem _ hc', hfields⟩

/-- The formatting loop succeeds when every surviving class index is inside
the catalog. -/
theorem formatDets_isSome {classes : List String} :
    ∀ {cs : List Cand}, (∀ c ∈ cs, c.classID < classes.length) →
      (formatDets classes cs).isSome = true := by
  intro cs
  induction cs with
  | nil => intro _; rw [formatDets]; rfl
  | cons c cs ih =>
    intro h
    rw [formatDets]
    obtain ⟨nm, hnm⟩ : ∃ nm, classes.get? c.classID = some nm :=
      ⟨_, List.get?_eq_get (h c (List.mem_cons_self c cs))⟩
    have hr := ih (fun c' hc' => h c' (List.mem_cons_of_mem _ hc'))
    obtain ⟨ds, hds⟩ := Option.isSome_iff_exists.mp hr
    rw [hnm, hds]
    rfl

/-- C7: the decoder keeps a row exactly when its best score beats the
threshold strictly; consequently every returned detection has confidence
strictly above the configured threshold, and when no candidate survives the
confidence filter the decoder returns an empty list rather than an error. -/
theorem C7_confidence_filter (classes : List String) (W H conf : ℚ)
    (outputs : List (List ℚ)) :
    (∀ l, get_coordinates classes W H outputs conf = some l →
      ∀ d ∈ l, conf < d.confidence)
    ∧ ((∀ row ∈ outputs, 6 ≤ row.length) →
      (∀ row ∈ outputs, (row.drop 5).getD (npArgmax (row.drop 5)) 0 ≤ conf) →
      get_coordinates classes W H outputs conf = some []) := by
  constructor
  · intro l hl d hd
    rw [get_coordinates] at hl
    split at hl
    · obtain ⟨c, hc, _, _, _, _, _, hcf⟩ := formatDets_mem hl d hd
      rw [hcf]
      exact (mem_nmsStage hc).2
    · cases hl
  · intro h6 hle
    have hcand : candidatesOf W H conf outputs = [] := by
      rw [candidatesOf, List.filter_eq_nil_iff]
      intro c hc
      rw [List.mem_map] at hc
      obtain ⟨row, hrow, rfl⟩ := hc
      simp only [decodeCand, decide_eq_true_eq]
      exact not_lt.mpr (hle row hrow)
    rw [get_coordinates,
      if_pos (List.all_eq_true.mpr (fun row hrow => decide_eq_true (h6 row hrow))), hcand]
    simp [nmsStage, nmsBoxes, nmsSelect, formatDets]

/-- C7 witness: a returned detection has confidence `0.9`, which the theorem
places strictly above the threshold `0.5`; and a single row whose best score
ties the threshold `0.25 ≤ 0.5` yields the empty list, not an error. -/
theorem C7_confidence_filter_witness :
    ((1 : ℚ)/2 < 9/10)
    ∧ get_coordinates ["a"] 20 20 [[1/2, 1/2, 1/4, 1/4, 0, 1/4]] (1/2) = some [] := by
  constructor
  · exact (C7_confidence_filter ["a", "b", "c"] 20 20 (1/2)
      [[1/2, 1/2, 1/4, 1/4, 0, 9/10, 1/10]]).1
      [⟨8, 8, 5, 5, 0, "a", 9/10⟩] (by with_unfolding_all decide)
      ⟨8, 8, 5, 5, 0, "a", 9/10⟩ (List.mem_singleton.mpr rfl)
  · exact (C7_confidence_filter ["a"] 20 20 (1/2) [[1/2, 1/2, 1/4, 1/4, 0, 1/4]]).2
      (by decide) (by with_unfolding_all decide)

/-! ## Bounding the argmax index -/

/-- The running scan never returns an index at or beyond the end. -/
theorem argmaxAux_lt :
    ∀ (vs : List ℚ) (best : ℕ) (bestV : ℚ) (i : ℕ), best < i →
      argmaxAux best bestV i vs < i + vs.length := by
  intro vs
  induction vs with
  | nil =>
    intro best bestV i h
    rw [argmaxAux]
    simpa using h
  | cons v vs ih =>
    intro best bestV i h
    rw [argmaxAux]
    split
    · have := ih i v (i + 1) (Nat.lt_succ_self i)
      rw [List.length_cons]
      omega
    · have := ih best bestV (i + 1) (Nat.lt_succ_of_lt h)
      rw [List.length_cons]
      omega

/-- `np.argmax` of a nonempty vector is a valid index. -/
theorem npArgmax_lt {l : List ℚ} (h : l ≠ []) : npArgmax l < l.length := by
  cases l with
  | nil => exact absurd rfl h
  | cons v vs =>
    rw [npArgmax]
    have := argmaxAux_lt vs 0 v 1 Nat.one_pos
    simpa [Nat.add_comm] using this

/-- Every candidate is the decoding of some output row that beat the
confidence threshold. -/
theorem mem_candidatesOf {W H conf : ℚ} {outputs : List (List ℚ)} {c : Cand}
    (hc : c ∈ candidatesOf W H conf outputs) :
    ∃ row ∈ outputs, c = decodeCand W H row ∧ conf < c.confidence := by
  rw [candidatesOf] at hc
  have h' := List.mem_filter.mp hc
  obtain ⟨row, hrow, rfl⟩ := List.mem_map.mp h'.1
  exact ⟨row, hrow, rfl, of_decide_eq_true h'.2⟩

/-- C2 counterexample: a malformed row — width 7 where the catalog has 3
classes, so a well-formed row has width `5 + 3 = 8` — is decoded without any
error and silently produces a box: the decoder neither validates the row
width nor fails (there is no `MalformedModelOutput` anywhere in the source;
`app/exceptions.py` defines no such class). -/
theorem C2_counterexample :
    get_coordinates ["a", "b", "c"] 20 20 [[1/2, 1/2, 1/4, 1/4, 0, 9/10, 1/10]] (1/2)
      = some [⟨8, 8, 5, 5, 0, "a", 9/10⟩]
    ∧ [(1:ℚ)/2, 1/2, 1/4, 1/4, 0, 9/10, 1/10].length ≠ 5 + ["a", "b", "c"].length := by
  constructor
  · with_unfolding_all decide
  · decide

/-- C2 amended: the decoder performs no row-width validation and never
raises a dedicated malformed-output error.  A row with fewer than 6 entries
makes it fail with an untyped `ValueError` (the `np.argmax` of an empty
slice), and any mix of row widths from 6 up to `5 + catalog size` — correct
or not — is decoded without error. -/
theorem C2_no_width_validation (classes : List String) (W H conf : ℚ)
    (outputs : List (List ℚ)) :
    ((∃ row ∈ outputs, row.length < 6) →
      get_coordinates classes W H outputs conf = none)
    ∧ ((∀ row ∈ outputs, 6 ≤ row.length ∧ row.length ≤ 5 + classes.length) →
      (get_coordinates classes W H outputs conf).isSome = true) := by
  constructor
  · intro ⟨row, hrow, hlen⟩
    rw [get_coordinates, if_neg]
    intro hall
    have := of_decide_eq_true (List.all_eq_true.mp hall row hrow)
    omega
  · intro h
    rw [get_coordinates,
      if_pos (List.all_eq_true.mpr (fun row hrow => decide_eq_true (h row hrow).1))]
    refine formatDets_isSome ?_
    intro c hc
    obtain ⟨row, hrow, rfl, _⟩ := mem_candidatesOf (mem_nmsStage hc).1
    have h6 := (h row hrow).1
    have hcat := (h row hrow).2
    have hne : row.drop 5 ≠ [] := by
      intro hnil
      have := congrArg List.length hnil
      rw [List.length_drop] at this
      simp at this
      omega
    have := npArgmax_lt hne
    rw [List.length_drop] at this
    show npArgmax (row.drop 5) < classes.length
    omega

/-- C2 witness: the amended theorem applied at concrete inputs — a row of
width 3 makes the decoder fail, and rows of width 6 with a one-class catalog
decode without error. -/
theorem C2_no_width_validation_witness :
    get_coordinates ["a"] 20 20 [[1, 2, 3]] (1/2) = none
    ∧ (get_coordinates ["a"] 20 20 [[1/2, 1/2, 1/4, 1/4, 0, 1/4]] (1/2)).isSome = true := by
  constructor
  · exact (C2_no_width_validation ["a"] 20 20 (1/2) [[1, 2, 3]]).1
      ⟨[1, 2, 3], by simp, by decide⟩
  · exact (C2_no_width_validation ["a"] 20 20 (1/2) [[1/2, 1/2, 1/4, 1/4, 0, 1/4]]).2
      (by intro row hrow; rw [List.mem_singleton] at hrow; subst hrow; constructor <;> decide)

/-- The claim's decoding formula for C3: top-left corner is center minus
half the extent, truncated toward zero. -/
def specTopLeft (center extent : ℚ) : ℤ := ratTrunc (center - extent / 2)

/-- C3 counterexample: on the row `(cx, cy, w, h) = (0.5, 0.5, 0.25, 0.25)`
with a 20×20 frame the scaled box is centered at `(10, 10)` with extent
`5×5`; the code produces the corner `int(10 - 5//2) = 8`, but the claim's
formula `trunc(center - extent/2)` gives `trunc(7.5) = 7`. -/
theorem C3_counterexample :
    get_coordinates ["a"] 20 20 [[1/2, 1/2, 1/4, 1/4, 0, 1]] (1/2)
      = some [⟨8, 8, 5, 5, 0, "a", 1⟩]
    ∧ specTopLeft 10 5 = 7 := by
  constructor
  · with_unfolding_all decide
  · with_unfolding_all decide

/-- C3 amended: every returned box comes from some output row by scaling the
normalized center and extent by the original frame's width and height, with
the top-left corner equal to `int(center - extent//2)` — the center minus
the *floor-halved* extent, truncated toward zero — and the width and height
integer-truncated. -/
theorem C3_box_decoding_amended (classes : List String) (W H conf : ℚ)
    (outputs : List (List ℚ)) (l : List Det) (d : Det)
    (hl : get_coordinates classes W H outputs conf = some l) (hd : d ∈ l) :
    ∃ row, row ∈ outputs
      ∧ d.x = ratTrunc (row.getD 0 0 * W - pyFloorDiv2 (row.getD 2 0 * W))
      ∧ d.y = ratTrunc (row.getD 1 0 * H - pyFloorDiv2 (row.getD 3 0 * H))
      ∧ d.w = ratTrunc (row.getD 2 0 * W)
      ∧ d.h = ratTrunc (row.getD 3 0 * H) := by
  rw [get_coordinates] at hl
  split at hl
  · obtain ⟨c, hc, hx, hy, hw, hh, _, _⟩ := formatDets_mem hl d hd
    obtain ⟨row, hrow, rfl, _⟩ := mem_candidatesOf (mem_nmsStage hc).1
    exact ⟨row, hrow, hx, hy, hw, hh⟩
  · cases hl

/-- C3 witness: the amended decoding applied to the counterexample input. -/
theorem C3_box_decoding_amended_witness :
    ∃ row, row ∈ [[(1:ℚ)/2, 1/2, 1/4, 1/4, 0, 1]]
      ∧ (8 : ℤ) = ratTrunc (row.getD 0 0 * 20 - pyFloorDiv2 (row.getD 2 0 * 20))
      ∧ (8 : ℤ) = ratTrunc (row.getD 1 0 * 20 - pyFloorDiv2 (row.getD 3 0 * 20))
      ∧ (5 : ℤ) = ratTrunc (row.getD 2 0 * 20)
      ∧ (5 : ℤ) = ratTrunc (row.getD 3 0 * 20) :=
  C3_box_decoding_amended ["a"] 20 20 (1/2) [[1/2, 1/2, 1/4, 1/4, 0, 1]]
    [⟨8, 8, 5, 5, 0, "a", 1⟩] ⟨8, 8, 5, 5, 0, "a", 1⟩
    (by with_unfolding_all decide) (List.mem_singleton.mpr rfl)

/-- C1: evaluation of the loop at a failing input for the pause claim.  The
run pulls frame `10`, the operator presses pause, one quiet iteration passes,
then quit.  The claim says the paused iterations append nothing; the code
appends `{'frame': 0, 'detections': detect 10}` again on *each* paused
iteration, because the detect/append/write block is guarded by
`frame is not None` (the stale frame) rather than `not paused`.  The claim's
other half is visible too: no new frame is pulled while paused (frame `20`
never appears) and the quit key pressed while paused does end the loop. -/
theorem C1_paused_loop_eval :
    runLoop (fun f => [f]) [Key.pause, Key.other, Key.quit] [10, 20] 0 false none []
      = ([⟨0, [10]⟩, ⟨0, [10]⟩, ⟨0, [10]⟩], 0)
    ∧ runLoop (fun f => [f]) [Key.pause, Key.quit] [10, 20] 0 false none []
      = ([⟨0, [10]⟩, ⟨0, [10]⟩], 0) := by
  constructor
  · with_unfolding_all decide
  · with_unfolding_all decide

/-- C6: evaluation of the renderer at a failing input for the wraparound
claim.  With a one-entry catalog and the matching one-color list, a
detection whose class index is 1 (equal to the catalog size) makes
`draw_identified_objects` raise a `KeyError` on the label lookup
`self.classes[classID]` (modelled by `none`), even though the color lookup
itself wraps around safely (`1 % 1 = 0` selects the first color).  An
in-range record on the same catalog renders fine. -/
theorem C6_renderer_keyerror_eval :
    draw_identified_objects ["a"] [(0, 0, 255)] [⟨0, 0, 4, 4, 1, "b", 9/10⟩] = none
    ∧ [((0:ℕ), (0:ℕ), (255:ℕ))].getD (1 % [((0:ℕ), (0:ℕ), (255:ℕ))].length) (0, 0, 0)
        = (0, 0, 255)
    ∧ draw_identified_objects ["a"] [(0, 0, 255)] [⟨0, 0, 4, 4, 0, "a", 9/10⟩]
        = some [⟨0, 0, 4, 4, (0, 0, 255), "a", 9/10⟩] := by
  refine ⟨?_, by decide, ?_⟩
  · with_unfolding_all decide
  · with_unfolding_all decide

/-- C4: `VideoCapture.__init__` classifies its failures: a file-classified
path that does not exist fails with the not-found error without consulting
the open oracle at all (the result is the same under every `opens`, i.e. the
failure happens before attempting to open); a stream URL that fails to open
raises the dedicated stream error, which is a different outcome from the
generic open failure; a camera index or an existing file that fails to open
raises the generic open failure. -/
theorem C4_open_failure_classification (root s : String) (fsExists : String → Bool)
    (opens : SourceKind → Bool) :
    (∀ p, classify root s = .file p → fsExists p = false →
      videoCaptureInit root fsExists opens s = .error (.sourceNotFound p)
      ∧ ∀ opens2, videoCaptureInit root fsExists opens2 s
          = videoCaptureInit root fsExists opens s)
    ∧ (∀ u, classify root s = .stream u → opens (.stream u) = false →
      videoCaptureInit root fsExists opens s = .error (.streamConnectFailed s))
    ∧ (∀ i, classify root s = .camera i → opens (.camera i) = false →
      videoCaptureInit root fsExists opens s = .error (.sourceOpenFailed s))
    ∧ (∀ p, classify root s = .file p → fsExists p = true → opens (.file p) = false →
      videoCaptureInit root fsExists opens s = .error (.sourceOpenFailed s))
    ∧ (∀ u p, OpenErr.streamConnectFailed u ≠ OpenErr.sourceOpenFailed p) := by
  refine ⟨?_, ?_, ?_, ?_, ?_⟩
  · intro p hp hfs
    refine ⟨by simp [videoCaptureInit, hp, hfs], ?_⟩
    intro opens2
    simp [videoCaptureInit, hp, hfs]
  · intro u hu ho
    have : u = s := by
      rw [classify] at hu
      split at hu
      · cases hu
      · split at hu
        · cases hu; rfl
        · cases hu
    subst this
    simp [videoCaptureInit, hu, ho]
  · intro i hi ho
    simp [videoCaptureInit, hi, ho]
  · intro p hp hfs ho
    simp [videoCaptureInit, hp, hfs, ho]
  · intro u p
    exact fun h => OpenErr.noConfusion h

/-- C4 witness: the four failure classifications at concrete inputs — a
relative file path that does not exist, an `rtsp://` URL that fails to open,
a camera index that fails to open, and an existing file that fails to open. -/
theorem C4_open_failure_classification_witness :
    (videoCaptureInit "/proj" (fun _ => false) (fun _ => false) "vid.mp4"
      = .error (.sourceNotFound "/proj/vid.mp4"))
    ∧ (videoCaptureInit "/proj" (fun _ => false) (fun _ => true) "vid.mp4"
      = videoCaptureInit "/proj" (fun _ => false) (fun _ => false) "vid.mp4")
    ∧ (videoCaptureInit "/proj" (fun _ => false) (fun _ => false) "rtsp://cam"
      = .error (.streamConnectFailed "rtsp://cam"))
    ∧ (videoCaptureInit "/proj" (fun _ => false) (fun _ => false) "7"
      = .error (.sourceOpenFailed "7"))
    ∧ (videoCaptureInit "/proj" (fun _ => true) (fun _ => false) "vid.mp4"
      = .error (.sourceOpenFailed "vid.mp4")) := by
  refine ⟨?_, ?_, ?_, ?_, ?_⟩
  · exact ((C4_open_failure_classification "/proj" "vid.mp4" (fun _ => false)
      (fun _ => false)).1 "/proj/vid.mp4" (by with_unfolding_all decide) rfl).1
  · exact ((C4_open_failure_classification "/proj" "vid.mp4" (fun _ => false)
      (fun _ => false)).1 "/proj/vid.mp4" (by with_unfolding_all decide) rfl).2
      (fun _ => true)
  · exact (C4_open_failure_classification "/proj" "rtsp://cam" (fun _ => false)
      (fun _ => false)).2.1 "rtsp://cam" (by with_unfolding_all decide) rfl
  · exact (C4_open_failure_classification "/proj" "7" (fun _ => false)
      (fun _ => false)).2.2.1 7 (by with_unfolding_all decide) rfl
  · exact (C4_open_failure_classification "/proj" "vid.mp4" (fun _ => true)
      (fun _ => false)).2.2.2.1 "/proj/vid.mp4" (by with_unfolding_all decide) rfl rfl

/-- Claim-shaped classifier for C5, following the claim's wording: all-digit
strings are cameras; a string whose *lower-cased* form starts with a known
scheme is a stream; everything else is a file (no whitespace stripping is
mentioned by the claim). -/
def classifySpecC5 (root : String) (s : String) : SourceKind :=
  if pyIsDigit s.data then .camera (digitsToNat s.data)
  else if streamUrlSchemes.any (fun p => startsWithScheme (pyLower s.data) p) then .stream s
  else .file (resolvePath root s)

/-- C5 counterexample: the code lower-cases *and strips* the string before
the scheme comparison, so `" http://a"` (leading space) is classified as a
stream, while the claim's purely-prefix-of-the-lower-cased-string reading
classifies it as a file. -/
theorem C5_counterexample :
    classify "/proj" " http://a" = .stream " http://a"
    ∧ classifySpecC5 "/proj" " http://a" = .file "/proj/ http://a" := by
  constructor
  · with_unfolding_all decide
  · with_unfolding_all decide

/-- Amended-claim-shaped classifier for C5: as the claim, except that the
scheme comparison is made against the lower-cased, whitespace-stripped form
of the string. -/
def classifySpecC5Amended (root : String) (s : String) : SourceKind :=
  if pyIsDigit s.data then .camera (digitsToNat s.data)
  else if streamUrlSchemes.any
      (fun p => startsWithScheme (pyStrip (pyLower s.data)) p) then .stream s
  else .file (resolvePath root s)

/-- C5 amended: for every root and every input string, the classification
performed by `VideoCapture.__init__` agrees with the amended claim — a pure
function of the string's syntactic form (all-digits → camera; known scheme
as prefix of the lower-cased, whitespace-stripped form → stream; otherwise
file, resolved against the project anchor when not absolute), taking no
filesystem information at all. -/
theorem C5_classification_amended (root s : String) :
    classify root s = classifySpecC5Amended root s := rfl

/-! ## Lemmas about the streaming loop -/

/-- Characterization of a run with no pause toggle and no quit: with enough
keyboard polls, the loop consumes every frame, pairing frame `i` (counting
from `n`) with its detections, and ends with the counter advanced by the
number of frames. -/
theorem runLoop_no_pause (detect : ℕ → List ℕ) :
    ∀ (frames : List ℕ) (keys : List Key) (n : ℕ) (lastF : Option ℕ)
      (acc : List FrameEntry),
      (∀ k ∈ keys, k = Key.other) → frames.length ≤ keys.length →
      runLoop detect keys frames n false lastF acc
        = (acc.reverse
            ++ List.zipWith (fun i f => ⟨i, detect f⟩) (List.range' n frames.length) frames,
           n + frames.length) := by
  intro frames
  induction frames with
  | nil =>
    intro keys n lastF acc _ _
    rw [runLoop]
    simp
  | cons f fs ih =>
    intro keys n lastF acc hk hlen
    cases keys with
    | nil => simp at hlen
    | cons k ks =>
      have hko : k = Key.other := hk k (List.mem_cons_self k ks)
      subst hko
      rw [runLoop]
      simp only [Bool.false_eq_true, if_false, if_true, List.range'_succ,
        List.zipWith_cons_cons]
      rw [ih ks (n + 1) (some f) (⟨n, detect f⟩ :: acc)
        (fun k h => hk k (List.mem_cons_of_mem _ h))
        (by simpa using Nat.le_of_succ_le_succ (by simpa using hlen))]
      rw [List.reverse_cons, List.append_assoc, List.singleton_append,
        List.length_cons, List.range'_succ, List.zipWith_cons_cons, Prod.mk.injEq]
      exact ⟨rfl, by omega⟩

/-- Mapping the frame index over the zipped pairs recovers the index list
when the two lists have equal length. -/
theorem map_frame_zipWith (detect : ℕ → List ℕ) :
    ∀ (is : List ℕ) (fs : List ℕ), is.length = fs.length →
      (List.zipWith (fun i f => (⟨i, detect f⟩ : FrameEntry)) is fs).map
          (fun e => e.frame) = is := by
  intro is
  induction is with
  | nil => intro fs _; simp
  | cons i is ih =>
    intro fs hlen
    cases fs with
    | nil => simp at hlen
    | cons f fs =>
      simp only [List.zipWith_cons_cons, List.map_cons]
      rw [ih fs (by simpa using hlen)]

/-- C9: a full run over a source with `N` frames, with no pause toggle and
no quit signal, accumulates exactly `N` entries whose frame indices are
`0, 1, ..., N-1` in order. -/
theorem C9_frame_indices (detect : ℕ → List ℕ) (frames : List ℕ) (keys : List Key)
    (hk : ∀ k ∈ keys, k = Key.other) (hlen : frames.length ≤ keys.length) :
    ((runLoop detect keys frames 0 false none []).1.map (fun e => e.frame)
        = List.range frames.length)
    ∧ (runLoop detect keys frames 0 false none []).1.length = frames.length := by
  rw [runLoop_no_pause detect frames keys 0 none [] hk hlen]
  have hzip := map_frame_zipWith detect (List.range' 0 frames.length) frames
    (by rw [List.length_range'])
  constructor
  · rw [List.range_eq_range']
    exact hzip
  · have h := congrArg List.length hzip
    rw [List.length_map, List.length_range'] at h
    exact h

/-- C9 witness: a two-frame source with only no-key polls yields entries
with frame indices `[0, 1]`. -/
theorem C9_frame_indices_witness :
    ((runLoop (fun f => [f]) [Key.other, Key.other] [5, 6] 0 false none []).1.map
        (fun e => e.frame) = List.range 2)
    ∧ (runLoop (fun f => [f]) [Key.other, Key.other] [5, 6] 0 false none []).1.length
        = 2 :=
  C9_frame_indices (fun f => [f]) [5, 6] [Key.other, Key.other] (by decide) (by decide)

/-- Exit helper for the loop invariant: the accumulator is kept most recent
first with nonincreasing frame fields bounded by the counter, so reversing
it yields a nondecreasing sequence bounded by the counter. -/
theorem pairwise_exit {acc : List FrameEntry} {n : ℕ}
    (hacc : ∀ e ∈ acc, e.frame ≤ n)
    (hpair : List.Pairwise (fun a b => b.frame ≤ a.frame) acc) :
    List.Pairwise (fun a b : FrameEntry => a.frame ≤ b.frame) acc.reverse
    ∧ ∀ e ∈ acc.reverse, e.frame ≤ n := by
  constructor
  · rw [List.pairwise_reverse]
    exact hpair
  · intro e he
    exact hacc e (List.mem_reverse.mp he)

/-- Extending the accumulator with the current frame number preserves both
invariants. -/
theorem acc_extend {acc : List FrameEntry} {n : ℕ} (e0 : FrameEntry)
    (h0 : e0.frame = n)
    (hacc : ∀ e ∈ acc, e.frame ≤ n)
    (hpair : List.Pairwise (fun a b => b.frame ≤ a.frame) acc) :
    (∀ e ∈ e0 :: acc, e.frame ≤ n)
    ∧ List.Pairwise (fun a b => b.frame ≤ a.frame) (e0 :: acc) := by
  constructor
  · intro e he
    rcases List.mem_cons.mp he with rfl | h
    · exact le_of_eq h0
    · exact hacc e h
  · exact List.pairwise_cons.mpr ⟨fun e he => h0 ▸ hacc e he, hpair⟩

/-- The loop invariant behind C10: starting from any state whose
accumulator (most recent first) has nonincreasing frame fields bounded by
the counter, the returned accumulator is nondecreasing in the frame field,
its entries are bounded by the returned counter, and the counter never
decreases. -/
theorem runLoop_invariant (detect : ℕ → List ℕ) :
    ∀ (keys : List Key) (frames : List ℕ) (n : ℕ) (paused : Bool) (lastF : Option ℕ)
      (acc : List FrameEntry),
      (∀ e ∈ acc, e.frame ≤ n) →
      List.Pairwise (fun a b => b.frame ≤ a.frame) acc →
      List.Pairwise (fun a b : FrameEntry => a.frame ≤ b.frame)
          (runLoop detect keys frames n paused lastF acc).1
      ∧ (∀ e ∈ (runLoop detect keys frames n paused lastF acc).1,
          e.frame ≤ (runLoop detect keys frames n paused lastF acc).2)
      ∧ n ≤ (runLoop detect keys frames n paused lastF acc).2 := by
  intro keys
  induction keys with
  | nil =>
    intro frames n paused lastF acc hacc hpair
    rw [runLoop.eq_def]
    cases paused
    · cases frames with
      | nil =>
        simp only [Bool.false_eq_true, if_false, if_true]
        exact ⟨(pairwise_exit hacc hpair).1, (pairwise_exit hacc hpair).2, le_refl n⟩
      | cons f fs =>
        simp only [Bool.false_eq_true, if_false, if_true]
        obtain ⟨hacc', hpair'⟩ := acc_extend (⟨n, detect f⟩ : FrameEntry) rfl hacc hpair
        exact ⟨(pairwise_exit hacc' hpair').1, (pairwise_exit hacc' hpair').2, le_refl n⟩
    · cases lastF with
      | none =>
        simp only [if_true, Bool.false_eq_true, if_false]
        exact ⟨(pairwise_exit hacc hpair).1, (pairwise_exit hacc hpair).2, le_refl n⟩
      | some f =>
        simp only [if_true, Bool.false_eq_true, if_false]
        obtain ⟨hacc', hpair'⟩ := acc_extend (⟨n, detect f⟩ : FrameEntry) rfl hacc hpair
        exact ⟨(pairwise_exit hacc' hpair').1, (pairwise_exit hacc' hpair').2, le_refl n⟩
  | cons k ks ih =>
    intro frames n paused lastF acc hacc hpair
    rw [runLoop.eq_def]
    cases paused
    · cases frames with
      | nil =>
        simp only [Bool.false_eq_true, if_false, if_true]
        exact ⟨(pairwise_exit hacc hpair).1, (pairwise_exit hacc hpair).2, le_refl n⟩
      | cons f fs =>
        simp only [Bool.false_eq_true, if_false, if_true]
        obtain ⟨hacc', hpair'⟩ := acc_extend (⟨n, detect f⟩ : FrameEntry) rfl hacc hpair
        cases k
        · exact ⟨(pairwise_exit hacc' hpair').1, (pairwise_exit hacc' hpair').2, le_refl n⟩
        · simp only [Bool.not_false, if_true]
          exact ih fs n true (some f) _ hacc' hpair'
        · simp only [Bool.false_eq_true, if_false]
          have hacc2 : ∀ e ∈ (⟨n, detect f⟩ :: acc : List FrameEntry), e.frame ≤ n + 1 :=
            fun e he => Nat.le_succ_of_le (hacc' e he)
          obtain ⟨h1, h2, h3⟩ := ih fs (n + 1) false (some f) _ hacc2 hpair'
          exact ⟨h1, h2, Nat.le_trans (Nat.le_succ n) h3⟩
    · cases lastF with
      | none =>
        simp only [if_true, Bool.not_true, Bool.false_eq_true, if_false]
        cases k
        · exact ⟨(pairwise_exit hacc hpair).1, (pairwise_exit hacc hpair).2, le_refl n⟩
        · have hacc2 : ∀ e ∈ acc, e.frame ≤ n + 1 :=
            fun e he => Nat.le_succ_of_le (hacc e he)
          obtain ⟨h1, h2, h3⟩ := ih frames (n + 1) false none _ hacc2 hpair
          exact ⟨h1, h2, Nat.le_trans (Nat.le_succ n) h3⟩
        · exact ih frames n true none _ hacc hpair
      | some f =>
        simp only [if_true, Bool.not_true, Bool.false_eq_true, if_false]
        obtain ⟨hacc', hpair'⟩ := acc_extend (⟨n, detect f⟩ : FrameEntry) rfl hacc hpair
        cases k
        · exact ⟨(pairwise_exit hacc' hpair').1, (pairwise_exit hacc' hpair').2, le_refl n⟩
        · have hacc2 : ∀ e ∈ (⟨n, detect f⟩ :: acc : List FrameEntry), e.frame ≤ n + 1 :=
            fun e he => Nat.le_succ_of_le (hacc' e he)
          obtain ⟨h1, h2, h3⟩ := ih frames (n + 1) false (some f) _ hacc2 hpair'
          exact ⟨h1, h2, Nat.le_trans (Nat.le_succ n) h3⟩
        · exact ih frames n true (some f) _ hacc' hpair'

/-- C10: in every execution of the streaming loop — with pause toggles, a
quit signal, or a run cut off by interruption — the frame fields of the
successively appended entries form a nondecreasing sequence, and every
entry's frame index is bounded by the final value of the (never-decreasing)
frame counter. -/
theorem C10_frame_monotone (detect : ℕ → List ℕ) (keys : List Key) (frames : List ℕ) :
    List.Pairwise (fun a b : FrameEntry => a.frame ≤ b.frame)
        (runLoop detect keys frames 0 false none []).1
    ∧ ∀ e ∈ (runLoop detect keys frames 0 false none []).1,
        e.frame ≤ (runLoop detect keys frames 0 false none []).2 := by
  obtain ⟨h1, h2, _⟩ := runLoop_invariant detect keys frames 0 false none []
    (fun e he => absurd he (List.not_mem_nil e)) List.Pairwise.nil
  exact ⟨h1, h2⟩

end AiVision
